import Mathlib

set_option maxRecDepth 8000

/-
Shallow embedding of `src/main.c` (Fermat primality scan with a Carmichael
ground-truth oracle).

Modelling conventions:
* machine integers (`uint64_t`, GMP `mpz_t`) become `ℕ`; every value handled
  by the program is far below 2^64, so no wrap-around is modelled;
* the GMP random state is modelled as a stream `rng : ℕ → ℕ` together with a
  current index `i`; the draw `mpz_urandomm(base, state, n)` at index `i` is
  `rng i % n`, which realises exactly the values `[0, n)` that `mpz_urandomm`
  can produce, for every possible stream;
* unbounded C loops (the rejection loop of `generate_random_coprime`, the
  binary-search `while`) take an explicit `fuel`; `none` / a fuel-exhausted
  default means the loop has not exited within `fuel` iterations;
* the only fallible I/O relevant to the claims, `fopen` failing in
  `load_carmichael`, is modelled by an `Option` source: `none` stands for a
  source that cannot be opened, `some s` for a readable ascending stream `s`.
-/

/-- One iteration's draw adjustment inside `generate_random_coprime`
(src/main.c:56-59): a raw draw `b` from `[0, n)`; if `b < 2` it is shifted up
by 2, else if `b ≥ n` it is reduced mod `n` (dead for draws `< n`), else kept. -/
def grcStep (n b : ℕ) : ℕ :=
  if b < 2 then b + 2
  else if n ≤ b then b % n
  else b

/-- `generate_random_coprime` (src/main.c:53-63): rejection loop that draws
`rng i % n`, adjusts the draw with `grcStep`, and retries until the result is
coprime to `n`.  Returns the accepted base together with the next unused
stream index; `none` when the loop has not exited within `fuel` iterations
(the C loop is unbounded). -/
def grc : ℕ → ℕ → (ℕ → ℕ) → ℕ → Option (ℕ × ℕ)
  | 0, _, _, _ => none
  | fuel + 1, n, rng, i =>
    if Nat.gcd (grcStep n (rng i % n)) n = 1 then some (grcStep n (rng i % n), i + 1)
    else grc fuel n rng (i + 1)

/-- `fermat_test_gmp` (src/main.c:66-84): up to `k` trials; each trial samples
a coprime base `a` and checks `a ^ (n-1) mod n`; on the first trial with a
result different from 1 it returns verdict `0` (composite) with witness `a`;
if all `k` trials pass it returns verdict `1` (probable prime) with witness
set to `0`.  The third component is the next unused stream index; `none`
propagates sampler non-termination within `fuel`. -/
def fermat_test (fuel : ℕ) : ℕ → ℕ → (ℕ → ℕ) → ℕ → Option (ℕ × ℕ × ℕ)
  | _, 0, _, i => some (1, 0, i)
  | n, k + 1, rng, i =>
    match grc fuel n rng i with
    | none => none
    | some (a, j) =>
      if a ^ (n - 1) % n ≠ 1 then some (0, a, j)
      else fermat_test fuel n k rng j

/-- The `while (lo < hi)` loop of `is_carmichael` (src/main.c:38-42):
classic lower-bound binary search, `mid = (lo + hi) >> 1`; out-of-range reads
are modelled by `getD _ _ 0` (the proofs show each probed index is in range).
`none` means the loop has not exited within `fuel` iterations. -/
def bsearchLoop : ℕ → List ℕ → ℕ → ℕ → ℕ → Option ℕ
  | 0, _, _, lo, hi => if lo < hi then none else some lo
  | fuel + 1, l, n, lo, hi =>
    if lo < hi then
      if l.getD ((lo + hi) / 2) 0 < n then bsearchLoop fuel l n ((lo + hi) / 2 + 1) hi
      else bsearchLoop fuel l n lo ((lo + hi) / 2)
    else some lo

/-- The sequence of indices `mid` at which the loop of `bsearchLoop` reads
`carmichael_list[mid]`, in probe order (same recursion as `bsearchLoop`). -/
def probesLoop : ℕ → List ℕ → ℕ → ℕ → ℕ → List ℕ
  | 0, _, _, _, _ => []
  | fuel + 1, l, n, lo, hi =>
    if lo < hi then
      (lo + hi) / 2 ::
        (if l.getD ((lo + hi) / 2) 0 < n then probesLoop fuel l n ((lo + hi) / 2 + 1) hi
         else probesLoop fuel l n lo ((lo + hi) / 2))
    else []

/-- `is_carmichael` (src/main.c:36-44): binary search over the loaded list
followed by the guarded membership check `lo < count && list[lo] == n`.
Fuel `l.length` always suffices for the loop (proved below), so the `none`
branch is unreachable. -/
def is_carmichael (l : List ℕ) (n : ℕ) : Bool :=
  match bsearchLoop l.length l n 0 l.length with
  | some lo => decide (lo < l.length) && decide (l.getD lo 0 = n)
  | none => false

/-- The reading loop of `load_carmichael` (src/main.c:24-31): keep consuming
stream values while they are `≤ max_val`, stop at the first larger one. -/
def loadList (s : List ℕ) (max_val : ℕ) : List ℕ :=
  s.takeWhile (fun x => x ≤ max_val)

/-- The error taxonomy surfaced by the program: the pseudoprime source (or
output) cannot be opened — `perror` + `exit(1)` in the C code. -/
inductive IOError where
  | cannotOpen
deriving DecidableEq

/-- `load_carmichael` (src/main.c:15-33) including the `fopen` check:
an unopenable source (`none`) aborts the run with an I/O error; otherwise the
ascending stream is consumed by `loadList`. -/
def load_carmichael (src : Option (List ℕ)) (max_val : ℕ) :
    Except IOError (List ℕ) :=
  match src with
  | none => Except.error IOError.cannotOpen
  | some s => Except.ok (loadList s max_val)

/-- Number of binary digits of `x`, counted by halving; 64 halvings cover
every `uint64_t` value. -/
def bitLenCore : ℕ → ℕ → ℕ
  | 0, _ => 0
  | fuel + 1, x => if x = 0 then 0 else bitLenCore fuel (x / 2) + 1

/-- Bit length as computed at src/main.c:124: `x == 0 ? 1 : 64 - clzll(x)`,
i.e. the number of binary digits of `x` for `x ≥ 1` (exact for every
`x < 2^64`, the whole `uint64_t` domain of the program). -/
def bit_len (x : ℕ) : ℕ :=
  if x = 0 then 1 else bitLenCore 64 x

/-- The ground-truth refinement at src/main.c:125:
`is_really_prime = is_prime ? !is_carmichael(x) : 0`. -/
def is_really_prime (ps : List ℕ) (isPrime : ℕ) (x : ℕ) : Bool :=
  if isPrime ≠ 0 then !(is_carmichael ps x) else false

/-- One emitted CSV row (src/main.c:127-145), elapsed time omitted (an opaque
metric with no decision role).  `probablyPrime` keeps the C `int` 0/1;
`witnessVal` is printed only on composite verdicts. -/
structure VerdictRec where
  cand : ℕ
  bitLen : ℕ
  probablyPrime : ℕ
  witnessVal : Option ℕ
  reallyPrime : Bool
deriving DecidableEq, Repr

/-- The per-candidate body of the scan loop (src/main.c:112-145): run the
Fermat test, derive the bit length and the ground-truth flag, package the
row.  Threads the stream index. -/
def classifyOne (fuel k : ℕ) (ps : List ℕ) (rng : ℕ → ℕ) (i x : ℕ) :
    Option (VerdictRec × ℕ) :=
  match fermat_test fuel x k rng i with
  | none => none
  | some (v, w, j) =>
      some ({ cand := x, bitLen := bit_len x, probablyPrime := v,
              witnessVal := if v = 0 then some w else none,
              reallyPrime := is_really_prime ps v x }, j)

/-- Sequential classification of a list of candidates, threading the stream
index; `none` as soon as one candidate's sampler fails to terminate. -/
def runList (fuel k : ℕ) (ps : List ℕ) (rng : ℕ → ℕ) :
    ℕ → List ℕ → Option (List VerdictRec)
  | _, [] => some []
  | i, x :: xs =>
    match classifyOne fuel k ps rng i x with
    | none => none
    | some (r, j) => (runList fuel k ps rng j xs).map (r :: ·)

/-- The candidate sequence of an unchunked scan of `[low, high]`. -/
def unchunkedScan (low high : ℕ) : List ℕ :=
  List.range' low (high + 1 - low)

/-- The chunked outer/inner loops of `main` (src/main.c:108-112), generalised
to a starting point: `for (start; start ≤ high; start += chunk)` emitting the
inner range `[start, min (start+chunk-1) high]`.  The C loop terminates only
when `chunk > 0`; the guard makes that explicit (for `chunk = 0` the C loop
never advances and this model returns `[]`). -/
def chunkedFrom (high chunk : ℕ) (start : ℕ) : List ℕ :=
  if _h : start ≤ high ∧ 0 < chunk then
    List.range' start (min (start + chunk - 1) high + 1 - start) ++
      chunkedFrom high chunk (start + chunk)
  else []
termination_by high + 1 - start
decreasing_by omega

/-- The candidate sequence visited by the chunked scan of `[low, high]`. -/
def chunkedScan (low high chunk : ℕ) : List ℕ :=
  chunkedFrom high chunk low

/-- The whole scan of `main` (src/main.c:108-147): chunked iteration over
`[low, high]`, one row per candidate. -/
def runScan (fuel k : ℕ) (ps : List ℕ) (rng : ℕ → ℕ)
    (low high chunk : ℕ) : Option (List VerdictRec) :=
  runList fuel k ps rng 0 (chunkedScan low high chunk)

/-- `main` end to end (src/main.c:86-155): load the pseudoprime source
(aborting on an unopenable source), then scan. -/
def mainRun (src : Option (List ℕ)) (max_val : ℕ) (fuel k : ℕ)
    (rng : ℕ → ℕ) (low high chunk : ℕ) :
    Except IOError (Option (List VerdictRec)) :=
  match load_carmichael src max_val with
  | Except.error e => Except.error e
  | Except.ok ps => Except.ok (runScan fuel k ps rng low high chunk)

/-
Lemmas about the sampler and the Fermat test.
-/

/-- Fermat's little theorem in the form the test relies on: for prime `n`
and a base coprime to `n`, `a ^ (n-1) mod n = 1`. -/
lemma fermat_pow {n a : ℕ} (hp : n.Prime) (h : Nat.gcd a n = 1) :
    a ^ (n - 1) % n = 1 := by
  have hco : Nat.Coprime a n := h
  have hm : a ^ Nat.totient n % n = 1 % n := Nat.ModEq.pow_totient hco
  rw [Nat.totient_prime hp] at hm
  have h2 : 2 ≤ n := hp.two_le
  rw [hm]
  exact Nat.mod_eq_of_lt (by omega)

/-- Whatever `generate_random_coprime` returns is coprime to the modulus:
that is literally the loop's exit condition. -/
lemma grc_gcd {n : ℕ} {rng : ℕ → ℕ} :
    ∀ {fuel i a j}, grc fuel n rng i = some (a, j) → Nat.gcd a n = 1 := by
  intro fuel
  induction fuel with
  | zero => intro i a j h; simp [grc] at h
  | succ f ih =>
    intro i a j h
    rw [grc] at h
    split_ifs at h with hg
    · simp only [Option.some.injEq, Prod.mk.injEq] at h
      obtain ⟨rfl, -⟩ := h
      exact hg
    · exact ih h

/-- For a modulus `n ≥ 4`, every base `generate_random_coprime` returns lies
in `[2, n-1]` (the draw is `< n`; draws below 2 are shifted to 2 or 3). -/
lemma grc_range {n : ℕ} (hn : 4 ≤ n) {rng : ℕ → ℕ} :
    ∀ {fuel i a j}, grc fuel n rng i = some (a, j) → 2 ≤ a ∧ a < n := by
  intro fuel
  induction fuel with
  | zero => intro i a j h; simp [grc] at h
  | succ f ih =>
    intro i a j h
    rw [grc] at h
    split_ifs at h with hg
    · simp only [Option.some.injEq, Prod.mk.injEq] at h
      obtain ⟨rfl, -⟩ := h
      have hb : rng i % n < n := Nat.mod_lt _ (by omega)
      unfold grcStep
      split_ifs with h1 h2 <;> omega
    · exact ih h

/-- On a prime modulus every trial passes, so `fermat_test_gmp` can only
return the probable-prime verdict (with the witness zeroed). -/
lemma fermat_test_prime {n : ℕ} (hp : n.Prime) {fuel : ℕ} {rng : ℕ → ℕ} :
    ∀ {k i v w j}, fermat_test fuel n k rng i = some (v, w, j) →
      v = 1 ∧ w = 0 := by
  intro k
  induction k with
  | zero =>
    intro i v w j h
    simp only [fermat_test, Option.some.injEq, Prod.mk.injEq] at h
    exact ⟨h.1.symm, h.2.1.symm⟩
  | succ m ih =>
    intro i v w j h
    rw [fermat_test] at h
    cases hg : grc fuel n rng i with
    | none => rw [hg] at h; exact absurd h (by simp)
    | some p =>
      obtain ⟨a, j'⟩ := p
      rw [hg] at h
      dsimp only at h
      have hpow : a ^ (n - 1) % n = 1 := fermat_pow hp (grc_gcd hg)
      rw [if_neg (by simp [hpow])] at h
      exact ih h

/-- On a modulus `n ≥ 4`, a composite verdict carries a witness `a` with
`2 ≤ a < n` whose Fermat congruence fails. -/
lemma fermat_test_composite {n : ℕ} (hn : 4 ≤ n) {fuel : ℕ} {rng : ℕ → ℕ} :
    ∀ {k i a j}, fermat_test fuel n k rng i = some (0, a, j) →
      2 ≤ a ∧ a < n ∧ a ^ (n - 1) % n ≠ 1 := by
  intro k
  induction k with
  | zero =>
    intro i a j h
    simp only [fermat_test, Option.some.injEq, Prod.mk.injEq] at h
    omega
  | succ m ih =>
    intro i a j h
    rw [fermat_test] at h
    cases hg : grc fuel n rng i with
    | none => rw [hg] at h; exact absurd h (by simp)
    | some p =>
      obtain ⟨b, j'⟩ := p
      rw [hg] at h
      dsimp only at h
      by_cases ht : b ^ (n - 1) % n ≠ 1
      · rw [if_pos ht] at h
        simp only [Option.some.injEq, Prod.mk.injEq] at h
        obtain ⟨-, rfl, -⟩ := h
        obtain ⟨h2, h3⟩ := grc_range hn hg
        exact ⟨h2, h3, ht⟩
      · rw [if_neg ht] at h
        exact ih h

/-
Claim theorems: Fermat test (C1, C5) and the sampler defects (C3, C4).
-/

/-- Claim C1: one-sided soundness of the Fermat test — whenever
`fermat_test_gmp` returns the composite verdict (0), `n` is not prime;
equivalently, on a prime `n` every terminating run returns the
probable-prime verdict (1), for every repetition count `k` and every
random stream. -/
theorem fermat_one_sided_soundness :
    (∀ (fuel n k : ℕ) (rng : ℕ → ℕ) (i w j : ℕ),
        fermat_test fuel n k rng i = some (0, w, j) → ¬ n.Prime) ∧
    (∀ (fuel n k : ℕ) (rng : ℕ → ℕ) (i v w j : ℕ), n.Prime →
        fermat_test fuel n k rng i = some (v, w, j) → v = 1) := by
  constructor
  · intro fuel n k rng i w j h hp
    exact absurd (fermat_test_prime hp h).1 (by omega)
  · intro fuel n k rng i v w j hp h
    exact (fermat_test_prime hp h).1

/-- Witness for C1: a terminating concrete run on the prime 5 (one trial,
stream constantly drawing 2) returns verdict 1. -/
theorem fermat_one_sided_soundness_witness :
    Nat.Prime 5 ∧ fermat_test 1 5 1 (fun _ => 2) 0 = some (1, 0, 1) ∧ (1 : ℕ) = 1 :=
  ⟨by norm_num, by decide,
   fermat_one_sided_soundness.2 1 5 1 (fun _ => 2) 0 1 0 1 (by norm_num) (by decide)⟩

/-- Claim C5: witness validity — for composite `n`, a composite verdict's
counter-witness `a` satisfies `1 < a < n` and `a ^ (n-1) mod n ≠ 1`,
for every random stream. -/
theorem fermat_witness_validity (fuel n k : ℕ) (rng : ℕ → ℕ) (i a j : ℕ)
    (hn : 2 ≤ n) (hnp : ¬ n.Prime)
    (h : fermat_test fuel n k rng i = some (0, a, j)) :
    1 < a ∧ a < n ∧ a ^ (n - 1) % n ≠ 1 := by
  have h4 : 4 ≤ n := by
    have h2 : n ≠ 2 := fun e => hnp (e ▸ Nat.prime_two)
    have h3 : n ≠ 3 := fun e => hnp (e ▸ Nat.prime_three)
    omega
  obtain ⟨ha, hb, hc⟩ := fermat_test_composite h4 h
  exact ⟨by omega, hb, hc⟩

/-- Witness for C5: the composite 4, one trial, stream drawing 1: the test
returns witness 3 with `3^3 mod 4 = 3 ≠ 1`. -/
theorem fermat_witness_validity_witness :
    (2 ≤ 4 ∧ ¬ Nat.Prime 4 ∧ fermat_test 1 4 1 (fun _ => 1) 0 = some (0, 3, 1)) ∧
    (1 < 3 ∧ 3 < 4 ∧ 3 ^ (4 - 1) % 4 ≠ 1) :=
  ⟨⟨by norm_num, by norm_num, by decide⟩,
   fermat_witness_validity 1 4 1 (fun _ => 1) 0 3 1 (by norm_num) (by norm_num) (by decide)⟩

/-- The rejection loop of `generate_random_coprime` at modulus 2 never exits
on a stream whose draws are all even: the adjusted base is always 2 and
`gcd 2 2 ≠ 1`. -/
lemma grc_two_none : ∀ (fuel i : ℕ), grc fuel 2 (fun _ => 0) i = none := by
  intro fuel
  induction fuel with
  | zero => intro i; rfl
  | succ f ih =>
    intro i
    rw [grc]
    norm_num [grcStep]
    exact ih (i + 1)

/-- Claim C3 (code-bug demonstration): `main` has no small-`n` branch — for
the candidates `n = 1, 2, 3` it calls `fermat_test_gmp`, which (for `k ≥ 1`)
invokes `generate_random_coprime` with modulus `n < 4`.  At `n = 2`, on the
all-zero stream, the sampler's rejection loop never terminates, so the
classifier produces no verdict at all — the verdict at `n ≤ 3` is neither
predetermined nor sampler-free, contrary to the claim. -/
theorem small_n_sampler_invoked :
    (∀ fuel i : ℕ, grc fuel 2 (fun _ => 0) i = none) ∧
    (∀ fuel k i : ℕ, fermat_test fuel 2 (k + 1) (fun _ => 0) i = none) ∧
    (∀ fuel k i : ℕ, classifyOne fuel (k + 1) [] (fun _ => 0) i 2 = none) := by
  refine ⟨grc_two_none, ?_, ?_⟩
  · intro fuel k i
    rw [fermat_test, grc_two_none]
  · intro fuel k i
    rw [classifyOne, fermat_test, grc_two_none]

/-- Claim C4 (code-bug demonstration): at modulus `n = 9` — where the
contracted interval `[2, n-2] = [2, 7]` is non-empty and contains coprime
values — the sampler returns `a = 8 = n-1 > n-2` when the stream draws 8
(the draw is kept verbatim since `2 ≤ 8 < 9` and `gcd 8 9 = 1`), violating
the contract `2 ≤ a ≤ n-2` stated in the code's own comment and the spec. -/
theorem sampler_exceeds_contract_range :
    grc 1 9 (fun _ => 8) 0 = some (8, 1) ∧ Nat.gcd 8 9 = 1 ∧ 9 - 2 < 8 := by
  refine ⟨by decide, by decide, by decide⟩

/-
Lemmas about the binary-search oracle and the loading loop.
-/

/-- In a strictly sorted list, `getD` at a smaller in-range index is
strictly smaller. -/
lemma getD_lt_getD {l : List ℕ} (hs : List.Sorted (· < ·) l)
    {i j : ℕ} (hij : i < j) (hj : j < l.length) :
    l.getD i 0 < l.getD j 0 := by
  have hi : i < l.length := Nat.lt_trans hij hj
  rw [List.getD_eq_getElem l 0 hi, List.getD_eq_getElem l 0 hj]
  exact List.pairwise_iff_getElem.mp hs i j hi hj hij

/-- Main invariant of the binary-search loop: with enough fuel it exits at a
lower bound `r` such that everything strictly below `r` is `< n` and
everything from `r` up to `hi` is `≥ n`. -/
lemma bsearchLoop_inv {l : List ℕ} {n : ℕ} (hs : List.Sorted (· < ·) l) :
    ∀ (fuel lo hi : ℕ), hi - lo ≤ fuel → lo ≤ hi → hi ≤ l.length →
      ∃ r, bsearchLoop fuel l n lo hi = some r ∧ lo ≤ r ∧ r ≤ hi ∧
        (∀ j, lo ≤ j → j < r → l.getD j 0 < n) ∧
        (∀ j, r ≤ j → j < hi → n ≤ l.getD j 0) := by
  intro fuel
  induction fuel with
  | zero =>
    intro lo hi hf hlh hhl
    have he : lo = hi := by omega
    subst he
    refine ⟨lo, ?_, Nat.le_refl _, Nat.le_refl _, ?_, ?_⟩
    · rw [bsearchLoop, if_neg (by omega)]
    · intro j h1 h2; omega
    · intro j h1 h2; omega
  | succ f ih =>
    intro lo hi hf hlh hhl
    rw [bsearchLoop]
    by_cases hlt : lo < hi
    · rw [if_pos hlt]
      by_cases hmid : l.getD ((lo + hi) / 2) 0 < n
      · rw [if_pos hmid]
        obtain ⟨r, h1, h2, h3, h4, h5⟩ :=
          ih ((lo + hi) / 2 + 1) hi (by omega) (by omega) hhl
        refine ⟨r, h1, by omega, h3, ?_, h5⟩
        intro j hj1 hj2
        by_cases hjm : j < (lo + hi) / 2
        · have hmlen : (lo + hi) / 2 < l.length := by omega
          exact Nat.lt_trans (getD_lt_getD hs hjm hmlen) hmid
        · by_cases hje : j = (lo + hi) / 2
          · rw [hje]; exact hmid
          · exact h4 j (by omega) hj2
      · rw [if_neg hmid]
        obtain ⟨r, h1, h2, h3, h4, h5⟩ :=
          ih lo ((lo + hi) / 2) (by omega) (by omega) (by omega)
        refine ⟨r, h1, h2, by omega, h4, ?_⟩
        intro j hj1 hj2
        by_cases hjm : j < (lo + hi) / 2
        · exact h5 j hj1 hjm
        · by_cases hje : j = (lo + hi) / 2
          · rw [hje]; omega
          · have hjlen : j < l.length := by omega
            have hml : l.getD ((lo + hi) / 2) 0 < l.getD j 0 :=
              getD_lt_getD hs (by omega) hjlen
            omega
    · rw [if_neg hlt]
      have he : lo = hi := by omega
      subst he
      refine ⟨lo, rfl, Nat.le_refl _, Nat.le_refl _, ?_, ?_⟩
      · intro j h1 h2; omega
      · intro j h1 h2; omega

/-- The loop always exits within `hi - lo` iterations (no sortedness
needed), so fuel `l.length` suffices in `is_carmichael`. -/
lemma bsearchLoop_isSome {l : List ℕ} {n : ℕ} :
    ∀ (fuel lo hi : ℕ), hi - lo ≤ fuel → (bsearchLoop fuel l n lo hi).isSome := by
  intro fuel
  induction fuel with
  | zero =>
    intro lo hi hf
    rw [bsearchLoop, if_neg (by omega)]
    rfl
  | succ f ih =>
    intro lo hi hf
    rw [bsearchLoop]
    by_cases hlt : lo < hi
    · rw [if_pos hlt]
      by_cases hmid : l.getD ((lo + hi) / 2) 0 < n
      · rw [if_pos hmid]; exact ih _ _ (by omega)
      · rw [if_neg hmid]; exact ih _ _ (by omega)
    · rw [if_neg hlt]; rfl

/-- Every probe of the binary-search loop stays inside `[lo, hi)`. -/
lemma probesLoop_bound :
    ∀ (fuel : ℕ) (l : List ℕ) (n lo hi j : ℕ),
      j ∈ probesLoop fuel l n lo hi → lo ≤ j ∧ j < hi := by
  intro fuel
  induction fuel with
  | zero => intro l n lo hi j h; simp [probesLoop] at h
  | succ f ih =>
    intro l n lo hi j h
    rw [probesLoop] at h
    by_cases hlt : lo < hi
    · rw [if_pos hlt] at h
      rcases List.mem_cons.mp h with rfl | h2
      · omega
      · by_cases hmid : l.getD ((lo + hi) / 2) 0 < n
        · rw [if_pos hmid] at h2
          have := ih l n ((lo + hi) / 2 + 1) hi j h2
          omega
        · rw [if_neg hmid] at h2
          have := ih l n lo ((lo + hi) / 2) j h2
          omega
    · rw [if_neg hlt] at h
      simp at h

/-- Correctness of `is_carmichael` on a strictly sorted list: it decides
membership. -/
lemma is_carmichael_iff_mem {l : List ℕ} (hs : List.Sorted (· < ·) l) (n : ℕ) :
    is_carmichael l n = true ↔ n ∈ l := by
  obtain ⟨r, h1, h2, h3, h4, h5⟩ :=
    bsearchLoop_inv (n := n) hs l.length 0 l.length (by omega) (by omega) (Nat.le_refl _)
  rw [is_carmichael, h1]
  simp only [Bool.and_eq_true, decide_eq_true_eq]
  constructor
  · rintro ⟨hrl, hrn⟩
    rw [List.getD_eq_getElem l 0 hrl] at hrn
    exact hrn ▸ List.getElem_mem hrl
  · intro hmem
    obtain ⟨idx, hidx, hval⟩ := List.mem_iff_getElem.mp hmem
    have hgd : l.getD idx 0 = n := by
      rw [List.getD_eq_getElem l 0 hidx]; exact hval
    have hri : r ≤ idx := by
      by_contra hc
      push_neg at hc
      have := h4 idx (by omega) hc
      omega
    have hre : r = idx := by
      by_contra hc
      have h5r : n ≤ l.getD r 0 := h5 r (Nat.le_refl _) (by omega)
      have hgl : l.getD r 0 < l.getD idx 0 := getD_lt_getD hs (by omega) hidx
      omega
    exact ⟨hre ▸ hidx, hre ▸ hgd⟩

/-- The loaded list inherits strict sortedness from the stream. -/
lemma loadList_sorted {s : List ℕ} (hs : List.Sorted (· < ·) s) (mv : ℕ) :
    List.Sorted (· < ·) (loadList s mv) :=
  List.Pairwise.sublist (List.takeWhile_sublist _) hs

/-- On an ascending stream, the loaded list holds exactly the stream values
`≤ max_val`. -/
lemma mem_loadList {s : List ℕ} (hs : List.Sorted (· < ·) s) (mv n : ℕ) :
    n ∈ loadList s mv ↔ n ∈ s ∧ n ≤ mv := by
  induction s with
  | nil => simp [loadList]
  | cons a t ih =>
    rw [List.sorted_cons] at hs
    by_cases ha : a ≤ mv
    · rw [loadList, List.takeWhile_cons, if_pos (by simpa using ha)]
      simp only [List.mem_cons]
      rw [show List.takeWhile (fun x => decide (x ≤ mv)) t = loadList t mv from rfl,
        ih hs.2]
      constructor
      · rintro (rfl | ⟨h1, h2⟩)
        · exact ⟨Or.inl rfl, ha⟩
        · exact ⟨Or.inr h1, h2⟩
      · rintro ⟨rfl | h1, h2⟩
        · exact Or.inl rfl
        · exact Or.inr ⟨h1, h2⟩
    · rw [loadList, List.takeWhile_cons, if_neg (by simpa using ha)]
      simp only [List.not_mem_nil, false_iff, List.mem_cons]
      rintro ⟨rfl | h1, h2⟩
      · omega
      · have := hs.1 n h1
        omega

/-- The loading loop keeps the longest such prefix: any other all-`≤ max_val`
prefix of the stream extends to the loaded one. -/
lemma loadList_longest {mv : ℕ} :
    ∀ (p s t' : List ℕ), p ++ t' = s → (∀ x ∈ p, x ≤ mv) →
      ∃ t, p ++ t = loadList s mv := by
  intro p
  induction p with
  | nil => intro s t' h1 h2; exact ⟨loadList s mv, rfl⟩
  | cons a q ih =>
    intro s t' h1 h2
    subst h1
    have ha : a ≤ mv := h2 a (by simp)
    obtain ⟨t, ht⟩ := ih (q ++ t') t' rfl (fun x hx => h2 x (by simp [hx]))
    refine ⟨t, ?_⟩
    rw [loadList]
    simp only [List.cons_append]
    rw [List.takeWhile_cons, if_pos (by simpa using ha), ht]
    rfl

/-- If every stream value exceeds the bound, the loading loop stops at the
first value and keeps nothing. -/
lemma loadList_nil_of_all_gt {s : List ℕ} {mv : ℕ} (h : ∀ x ∈ s, mv < x) :
    loadList s mv = [] := by
  cases s with
  | nil => rfl
  | cons a t =>
    have ha : ¬ a ≤ mv := by have := h a (by simp); omega
    rw [loadList, List.takeWhile_cons, if_neg (by simpa using ha)]

/-
Claim theorems: oracle (C6, C2, C10).
-/

/-- Claim C6: oracle correctness — on a strictly ascending stream,
`load_carmichael` keeps precisely the longest all-`≤ max_val` prefix of the
stream, and `is_carmichael` on the loaded list answers membership exactly:
true iff the queried value occurs in the stream and is `≤ max_val`. -/
theorem oracle_correctness (s : List ℕ) (mv n : ℕ)
    (hs : List.Sorted (· < ·) s) :
    (is_carmichael (loadList s mv) n = true ↔ n ∈ s ∧ n ≤ mv) ∧
    (∃ t, loadList s mv ++ t = s) ∧
    (∀ x ∈ loadList s mv, x ≤ mv) ∧
    (∀ p t', p ++ t' = s → (∀ x ∈ p, x ≤ mv) →
      ∃ t, p ++ t = loadList s mv) := by
  refine ⟨?_, ⟨s.dropWhile (fun x => decide (x ≤ mv)), ?_⟩, ?_, ?_⟩
  · rw [is_carmichael_iff_mem (loadList_sorted hs mv) n]
    exact mem_loadList hs mv n
  · rw [loadList]
    exact List.takeWhile_append_dropWhile _ _
  · intro x hx
    simpa using List.mem_takeWhile_imp hx
  · intro p t' h1 h2
    exact loadList_longest p s t' h1 h2

/-- Witness for C6 at a concrete ascending stream (the three smallest
Carmichael numbers), bound 1200 and query 561. -/
theorem oracle_correctness_witness :
    is_carmichael (loadList [561, 1105, 1729] 1200) 561 = true ↔
      561 ∈ [561, 1105, 1729] ∧ 561 ≤ 1200 :=
  (oracle_correctness [561, 1105, 1729] 1200 561 (by decide)).1

/-- Claim C2: ground-truth refinement — the emitted flag equals
`probably_prime AND NOT (candidate ∈ loaded set)` (membership as decided by
the binary search on the sorted loaded list), and on a composite verdict the
flag is false independently of the oracle (no lookup can influence it). -/
theorem really_prime_refinement :
    (∀ (ps : List ℕ) (v x : ℕ), List.Sorted (· < ·) ps →
        is_really_prime ps v x = (decide (v ≠ 0) && !(decide (x ∈ ps)))) ∧
    (∀ (ps : List ℕ) (x : ℕ), is_really_prime ps 0 x = false) ∧
    (∀ (ps ps' : List ℕ) (x : ℕ),
        is_really_prime ps 0 x = is_really_prime ps' 0 x) := by
  refine ⟨?_, ?_, ?_⟩
  · intro ps v x hs
    have hdec : is_carmichael ps x = decide (x ∈ ps) := by
      by_cases hm : x ∈ ps
      · rw [(is_carmichael_iff_mem hs x).mpr hm, decide_eq_true hm]
      · rw [decide_eq_false hm]
        cases hmc : is_carmichael ps x with
        | false => rfl
        | true => exact absurd ((is_carmichael_iff_mem hs x).mp hmc) hm
    rw [is_really_prime, hdec]
    by_cases hv : v ≠ 0
    · simp [hv]
    · push_neg at hv
      simp [hv]
  · intro ps x
    simp [is_really_prime]
  · intro ps ps' x
    simp [is_really_prime]

/-- Witness for C2 at a concrete sorted set and a probable-prime verdict. -/
theorem really_prime_refinement_witness :
    is_really_prime [561] 1 561 = (decide ((1 : ℕ) ≠ 0) && !(decide (561 ∈ [561]))) :=
  really_prime_refinement.1 [561] 1 561 (by decide)

/-- Claim C10: the membership query is total and safe — the binary-search
loop exits within `hi - lo` iterations (so fuel `l.length` suffices for
`is_carmichael`), every probed index is in `[0, m)`, and on an empty list
(in particular when no stream value was `≤ max_val`) the query is false. -/
theorem membership_query_safe :
    (∀ (l : List ℕ) (n fuel : ℕ), l.length ≤ fuel →
        (bsearchLoop fuel l n 0 l.length).isSome) ∧
    (∀ (fuel : ℕ) (l : List ℕ) (n j : ℕ),
        j ∈ probesLoop fuel l n 0 l.length → j < l.length) ∧
    (∀ n : ℕ, is_carmichael [] n = false) ∧
    (∀ (s : List ℕ) (mv n : ℕ), (∀ x ∈ s, mv < x) →
        is_carmichael (loadList s mv) n = false) := by
  refine ⟨?_, ?_, ?_, ?_⟩
  · intro l n fuel hf
    exact bsearchLoop_isSome fuel 0 l.length (by omega)
  · intro fuel l n j hj
    exact (probesLoop_bound fuel l n 0 l.length j hj).2
  · intro n
    rfl
  · intro s mv n h
    rw [loadList_nil_of_all_gt h]
    rfl

/-- Witness for C10: loop termination on a concrete two-element list, the
probed index 1 of that search is in range, and the query on a list loaded
from an all-too-large stream is false. -/
theorem membership_query_safe_witness :
    (bsearchLoop 2 [561, 1105] 1105 0 2).isSome ∧
    1 < [561, 1105].length ∧
    is_carmichael (loadList [561] 10) 561 = false :=
  ⟨membership_query_safe.1 [561, 1105] 1105 2 (by decide),
   membership_query_safe.2.1 2 [561, 1105] 1105 1 (by decide),
   membership_query_safe.2.2.2 [561] 10 561 (by decide)⟩

/-
Claim theorems: pipeline (C7, C8, C9).
-/

/-- For a positive chunk size the chunked outer loop visits exactly the
contiguous range `[start, high]`. -/
lemma chunkedFrom_eq {chunk : ℕ} (hc : 0 < chunk) (high : ℕ) :
    ∀ start, chunkedFrom high chunk start = List.range' start (high + 1 - start) := by
  have key : ∀ m start, high + 1 - start ≤ m →
      chunkedFrom high chunk start = List.range' start (high + 1 - start) := by
    intro m
    induction m with
    | zero =>
      intro start hm
      rw [chunkedFrom, dif_neg (by omega), show high + 1 - start = 0 by omega]
      rfl
    | succ m ih =>
      intro start hm
      rw [chunkedFrom]
      by_cases hsh : start ≤ high
      · rw [dif_pos ⟨hsh, hc⟩, ih (start + chunk) (by omega)]
        by_cases hend : start + chunk - 1 ≤ high
        · rw [show min (start + chunk - 1) high = start + chunk - 1 by omega,
            show start + chunk - 1 + 1 - start = chunk by omega,
            List.range'_append_1]
          congr 1
          omega
        · rw [show min (start + chunk - 1) high = high by omega,
            show high + 1 - (start + chunk) = 0 by omega]
          simp
      · rw [dif_neg (by omega), show high + 1 - start = 0 by omega]
        rfl
  intro start
  exact key (high + 1 - start) start (Nat.le_refl _)

/-- Claim C7: chunking is correctness-neutral — for any positive chunk size
the chunked scan visits exactly the integers of `[low, high]`, in strictly
increasing order with no gaps or duplicates, and therefore produces the very
record sequence of the unchunked scan, for every stream, trial count and
pseudoprime set. -/
theorem chunking_neutral (low high chunk : ℕ) (hc : 0 < chunk) :
    chunkedScan low high chunk = unchunkedScan low high ∧
    List.Pairwise (· < ·) (chunkedScan low high chunk) ∧
    (∀ n, n ∈ chunkedScan low high chunk ↔ low ≤ n ∧ n ≤ high) ∧
    (∀ (fuel k : ℕ) (ps : List ℕ) (rng : ℕ → ℕ),
        runScan fuel k ps rng low high chunk =
          runList fuel k ps rng 0 (unchunkedScan low high)) := by
  have he : chunkedScan low high chunk = unchunkedScan low high :=
    chunkedFrom_eq hc high low
  refine ⟨he, ?_, ?_, ?_⟩
  · rw [he, unchunkedScan]
    exact List.pairwise_lt_range' low (high + 1 - low)
  · intro n
    rw [he, unchunkedScan, List.mem_range'_1]
    omega
  · intro fuel k ps rng
    rw [runScan, he]

/-- Witness for C7 at a concrete range and chunk size. -/
theorem chunking_neutral_witness :
    chunkedScan 1 10 3 = unchunkedScan 1 10 :=
  (chunking_neutral 1 10 3 (by decide)).1

/-- The 30-draw stream of the C8 scenario: index 0 classifies candidate 1;
indices 1-5 draw 1 for candidate 2; 6-10 draw 0 for candidate 3; 11 draws 1
for candidate 4; 12-16 draw 1 for candidate 5; 17 draws 5 for candidate 6;
18-22 draw 1 for candidate 7; 23 draws 3 for candidate 8; 24-28 draw 8 for
candidate 9 (base 8 = 9-1, a Fermat liar: 8^8 ≡ 1 mod 9); 29 draws 3 for
candidate 10. -/
def rngC8 : ℕ → ℕ := fun i =>
  [0, 1, 1, 1, 1, 1, 0, 0, 0, 0, 0, 1, 1, 1, 1, 1, 1, 5,
   1, 1, 1, 1, 1, 3, 8, 8, 8, 8, 8, 3].getD i 0

/-- Claim C8 (code-bug demonstration): the scan of `[1, 10]` with `k = 5`
on the stream `rngC8` (an empty pseudoprime set: no Carmichael number is
`≤ 10`) emits 10 ascending records, but the composite candidate 9 is emitted
with `is_truly_prime = true`: all five of its sampled bases are
`8 = 9 - 1` — a value the sampler may legally produce only because it fails
its `[2, n-2]` contract — and `8^8 mod 9 = 1`, so the Fermat test passes and
the Carmichael oracle (which does not list 9) cannot veto it.  The claim
that non-primes always get `is_truly_prime = false` for every random stream
is therefore false on the code. -/
theorem scan_1_10_misclassifies_nine :
    runScan 1 5 [] rngC8 1 10 1000000 =
      some [⟨1, 1, 0, some 2, false⟩, ⟨2, 2, 1, none, true⟩,
            ⟨3, 2, 1, none, true⟩, ⟨4, 3, 0, some 3, false⟩,
            ⟨5, 3, 1, none, true⟩, ⟨6, 3, 0, some 5, false⟩,
            ⟨7, 3, 1, none, true⟩, ⟨8, 4, 0, some 3, false⟩,
            ⟨9, 4, 1, none, true⟩, ⟨10, 4, 0, some 3, false⟩] ∧
    ¬ Nat.Prime 9 := by
  constructor
  · have h : chunkedScan 1 10 1000000 = List.range' 1 (10 + 1 - 1) :=
      chunkedFrom_eq (by norm_num) 10 1
    rw [runScan, h]
    decide
  · norm_num

/-- Claim C9: IOError fatality — an unopenable pseudoprime source makes
the load fail with the I/O error and the whole run abort with that same
error: no pseudoprime set is produced and no classification is performed. -/
theorem ioerror_aborts (max_val fuel k : ℕ) (rng : ℕ → ℕ)
    (low high chunk : ℕ) :
    load_carmichael none max_val = Except.error IOError.cannotOpen ∧
    mainRun none max_val fuel k rng low high chunk =
      Except.error IOError.cannotOpen :=
  ⟨rfl, rfl⟩
